import Mathlib

/-!
Verification of the via-core-ext data-availability client core.

This file shallowly embeds the DA-client core of the repository:
  * the hex identifier codec (crate `hex`: lowercase encode, case-insensitive decode),
  * big-endian / little-endian fixed-width integer byte encodings,
  * the `ViaDaBlob` chunk envelope and its bincode (1.x, fixint, trailing
    bytes allowed) wire format (`src/clients/da_clients/types.rs`),
  * `serialize_blob_ids` / `deserialize_blob_ids` (`types.rs`),
  * `parse_blob_id` (`src/clients/da_clients/common.rs`),
  * the in-memory backend `dispatch_blob` / `get_inclusion_data`
    (`src/clients/da_clients/in_memory/mod.rs`), with the mutex-guarded
    `HashMap` modelled as an association list threaded through the call,
  * the Celestia backend `dispatch_blob` / `get_inclusion_data`
    (`src/clients/da_clients/celestia/mod.rs`), with the network calls
    abstracted as an outcome parameter.

Rust `Vec<u8>` index-by-range expressions such as `bytes[..8]` panic when the
range exceeds the vector length; those control paths are modelled explicitly
as `panic` outcomes, distinct from returned `DAError` values.
-/

set_option maxRecDepth 10000

abbrev Byte := Fin 256

/-- Lowercase hex digit for a nibble, as produced by `hex::encode`. -/
def hexDigit (n : Nat) : Char :=
  if n < 10 then Char.ofNat (48 + n) else Char.ofNat (87 + n)

/-- Nibble value of a hex character; `hex::decode` accepts both cases. -/
def hexVal (c : Char) : Option (Fin 16) :=
  if h1 : 48 ≤ c.toNat ∧ c.toNat ≤ 57 then some ⟨c.toNat - 48, by omega⟩
  else if h2 : 97 ≤ c.toNat ∧ c.toNat ≤ 102 then some ⟨c.toNat - 87, by omega⟩
  else if h3 : 65 ≤ c.toNat ∧ c.toNat ≤ 70 then some ⟨c.toNat - 55, by omega⟩
  else none

/-- Character stream of `hex::encode`: two lowercase digits per byte. -/
def hexEncodeList : List Byte → List Char
  | [] => []
  | b :: bs => hexDigit (b.val / 16) :: hexDigit (b.val % 16) :: hexEncodeList bs

/-- `hex::encode` of a byte string. -/
def hexEncode (bs : List Byte) : String := ⟨hexEncodeList bs⟩

/-- `hex::decode` on the character stream: fails on odd length or a non-hex
character. -/
def hexDecodeList : List Char → Option (List Byte)
  | [] => some []
  | [_] => none
  | c1 :: c2 :: rest =>
    match hexVal c1, hexVal c2, hexDecodeList rest with
    | some h, some l, some bs =>
      some (⟨h.val * 16 + l.val, by have hh := h.isLt; have hl := l.isLt; omega⟩ :: bs)
    | _, _, _ => none

/-- `hex::decode` of an identifier string. -/
def hexDecode (s : String) : Option (List Byte) := hexDecodeList s.data

/-- Big-endian encoding of `n` into `k` bytes (`u64::to_be_bytes`,
`u32::to_be_bytes`); higher bits beyond `k` bytes are truncated, matching the
`as u32` casts in the source. -/
def natToBeBytes : Nat → Nat → List Byte
  | 0, _ => []
  | k + 1, n => natToBeBytes k (n / 256) ++ [⟨n % 256, by omega⟩]

/-- Big-endian byte-string value (`u64::from_be_bytes`, `u32::from_be_bytes`). -/
def beBytesToNat (bs : List Byte) : Nat :=
  bs.foldl (fun acc b => acc * 256 + b.val) 0

/-- Little-endian encoding of `n` into `k` bytes (bincode fixint integers). -/
def natToLeBytes : Nat → Nat → List Byte
  | 0, _ => []
  | k + 1, n => ⟨n % 256, by omega⟩ :: natToLeBytes k (n / 256)

/-- Little-endian byte-string value. -/
def leBytesToNat : List Byte → Nat
  | [] => 0
  | b :: bs => b.val + 256 * leBytesToNat bs

theorem natToBeBytes_length (k n : Nat) : (natToBeBytes k n).length = k := by
  induction k generalizing n with
  | zero => rfl
  | succ k ih => simp [natToBeBytes, ih]

theorem natToLeBytes_length (k n : Nat) : (natToLeBytes k n).length = k := by
  induction k generalizing n with
  | zero => rfl
  | succ k ih => simp [natToLeBytes, ih]

theorem beBytesToNat_append_singleton (bs : List Byte) (b : Byte) :
    beBytesToNat (bs ++ [b]) = beBytesToNat bs * 256 + b.val := by
  simp [beBytesToNat, List.foldl_append]

theorem beBytesToNat_natToBeBytes (k n : Nat) :
    beBytesToNat (natToBeBytes k n) = n % 256 ^ k := by
  induction k generalizing n with
  | zero => simp [natToBeBytes, beBytesToNat, Nat.mod_one]
  | succ k ih =>
    rw [natToBeBytes, beBytesToNat_append_singleton, ih, pow_succ, mul_comm (256 ^ k) 256,
      Nat.mod_mul]
    simp only [Fin.val_mk]
    omega

theorem leBytesToNat_natToLeBytes (k n : Nat) :
    leBytesToNat (natToLeBytes k n) = n % 256 ^ k := by
  induction k generalizing n with
  | zero => simp [natToLeBytes, leBytesToNat, Nat.mod_one]
  | succ k ih =>
    rw [natToLeBytes, leBytesToNat, ih, pow_succ, mul_comm (256 ^ k) 256, Nat.mod_mul]

theorem hexVal_hexDigit : ∀ n : Fin 16, hexVal (hexDigit n.val) = some n := by
  decide

theorem hexDecodeList_hexEncodeList (bs : List Byte) :
    hexDecodeList (hexEncodeList bs) = some bs := by
  induction bs with
  | nil => rfl
  | cons b bs ih =>
    have hb := b.isLt
    have hdiv : b.val / 16 < 16 := by omega
    have hmod : b.val % 16 < 16 := by omega
    have h1 := hexVal_hexDigit ⟨b.val / 16, hdiv⟩
    have h2 := hexVal_hexDigit ⟨b.val % 16, hmod⟩
    simp only [hexEncodeList, hexDecodeList, h1, h2, ih]
    congr 1
    congr 1
    apply Fin.ext
    simp
    omega

theorem hexDecode_hexEncode (bs : List Byte) : hexDecode (hexEncode bs) = some bs :=
  hexDecodeList_hexEncodeList bs

theorem hexEncode_injective {a b : List Byte} (h : hexEncode a = hexEncode b) : a = b := by
  have hd : hexEncodeList a = hexEncodeList b := congrArg String.data h
  have := hexDecodeList_hexEncodeList a
  rw [hd, hexDecodeList_hexEncodeList b] at this
  exact (Option.some_injective _ this).symm

theorem take_len_append {α : Type} (xs ys : List α) : (xs ++ ys).take xs.length = xs := by
  induction xs with
  | nil => rfl
  | cons a xs ih => simp [ih]

theorem drop_len_append {α : Type} (xs ys : List α) : (xs ++ ys).drop xs.length = ys := by
  induction xs with
  | nil => rfl
  | cons a xs ih => simp [ih]

theorem take_append_of_length {α : Type} {xs : List α} {n : Nat} (h : xs.length = n)
    (ys : List α) : (xs ++ ys).take n = xs := by
  subst h; exact take_len_append xs ys

theorem drop_append_of_length {α : Type} {xs : List α} {n : Nat} (h : xs.length = n)
    (ys : List α) : (xs ++ ys).drop n = ys := by
  subst h; exact drop_len_append xs ys

/-- `types.rs`: the chunk envelope `ViaDaBlob { chunks: usize, data: Vec<u8> }`.
`usize` is 64-bit on the deployment targets, modelled as `Nat` with
truncation at serialization time. -/
structure ViaDaBlob where
  chunks : Nat
  data : List Byte
deriving DecidableEq

/-- `ViaDaBlob::to_bytes`: `bincode::serialize`, i.e. bincode 1.x fixint
little-endian: `chunks` as 8-byte `u64`, then `data` as an 8-byte `u64`
length followed by the raw bytes. -/
def ViaDaBlob.to_bytes (b : ViaDaBlob) : List Byte :=
  natToLeBytes 8 b.chunks ++ (natToLeBytes 8 b.data.length ++ b.data)

/-- `ViaDaBlob::from_bytes`: `bincode::deserialize(..).ok()`. The legacy
bincode 1.x entry point reads fixint fields and allows trailing bytes, so the
parse succeeds whenever at least `16 + len` bytes are present. -/
def ViaDaBlob.from_bytes (bytes : List Byte) : Option ViaDaBlob :=
  if bytes.length < 8 then none
  else if (bytes.drop 8).length < 8 then none
  else if ((bytes.drop 8).drop 8).length < leBytesToNat ((bytes.drop 8).take 8) then none
  else some ⟨leBytesToNat (bytes.take 8),
             ((bytes.drop 8).drop 8).take (leBytesToNat ((bytes.drop 8).take 8))⟩

theorem from_bytes_to_bytes (b : ViaDaBlob) (h1 : b.chunks < 2 ^ 64)
    (h2 : b.data.length < 2 ^ 64) : ViaDaBlob.from_bytes (ViaDaBlob.to_bytes b) = some b := by
  have hp : (256 : Nat) ^ 8 = 2 ^ 64 := by norm_num
  have hA : (natToLeBytes 8 b.chunks).length = 8 := natToLeBytes_length 8 b.chunks
  have hB : (natToLeBytes 8 b.data.length).length = 8 := natToLeBytes_length 8 b.data.length
  unfold ViaDaBlob.to_bytes ViaDaBlob.from_bytes
  rw [drop_append_of_length hA, take_append_of_length hA, drop_append_of_length hB,
    take_append_of_length hB, leBytesToNat_natToLeBytes, leBytesToNat_natToLeBytes, hp,
    Nat.mod_eq_of_lt h1, Nat.mod_eq_of_lt h2]
  simp [hA, hB]

/-- `types.rs` `serialize_blob_ids`: hex-decode every identifier (any failure
is an `anyhow` error, modelled as `none`) and emit, per identifier, a 4-byte
big-endian length prefix (`len as u32`) followed by the raw bytes. -/
def serialize_blob_ids : List String → Option (List Byte)
  | [] => some []
  | id :: rest =>
    match hexDecode id, serialize_blob_ids rest with
    | some bytes, some tail => some (natToBeBytes 4 bytes.length ++ (bytes ++ tail))
    | _, _ => none

/-- `types.rs` `deserialize_blob_ids`: scan the buffer, reading a 4-byte
big-endian length then that many raw bytes, hex-encoding each chunk. The
range indexings `data[pos..pos + 4]` and `data[pos..pos + len]` panic when
they overrun the buffer (modelled as `none`); the `try_into()?` error path is
unreachable since the slice it receives always has exactly 4 bytes. -/
def deserialize_blob_ids (data : List Byte) : Option (List String) :=
  if _h0 : data = [] then some []
  else if _h4 : data.length < 4 then none
  else if _hl : (data.drop 4).length < beBytesToNat (data.take 4) then none
  else
    match deserialize_blob_ids ((data.drop 4).drop (beBytesToNat (data.take 4))) with
    | some ids => some (hexEncode ((data.drop 4).take (beBytesToNat (data.take 4))) :: ids)
    | none => none
termination_by data.length
decreasing_by
  simp only [List.length_drop]
  omega

/-- `common.rs` `parse_blob_id` outcomes: `ok` carries the commitment bytes
and block height; `fatal` is a returned `DAError { is_retriable: false }`;
`panic` is an out-of-bounds slice panic. -/
inductive ParseResult where
  | ok (commitment : List Byte) (block_height : Nat)
  | fatal
  | panic
deriving DecidableEq

/-- `common.rs` `parse_blob_id`: hex-decode (failure returns a non-retriable
`DAError`), then read `blob_id_bytes[..8]` as big-endian block height and
`blob_id_bytes[8..40]` as the commitment. Both range indexings panic when the
decoded buffer is too short; the `try_into` `map_err` branches are dead code. -/
def parse_blob_id (blob_id : String) : ParseResult :=
  match hexDecode blob_id with
  | none => .fatal
  | some bytes =>
    if bytes.length < 8 then .panic
    else if bytes.length < 40 then .panic
    else .ok ((bytes.drop 8).take 32) (beBytesToNat (bytes.take 8))

/-- The locator encoding shared by both backends' `dispatch_blob`:
`blob_id = hex([block_height as 8 big-endian bytes | commitment hash])`. -/
def encode_blob_id (block_height : Nat) (commitment : List Byte) : String :=
  hexEncode (natToBeBytes 8 block_height ++ commitment)

/-- The in-memory backend's `HashMap<String, Vec<u8>>`, as an association
list in which a fresh insertion shadows any older binding for the same key. -/
abbrev Storage := List (String × List Byte)

def lookupS : Storage → String → Option (List Byte)
  | [], _ => none
  | (k, v) :: rest, key => if k = key then some v else lookupS rest key

/-- `HashMap::get` behind the mutex: reads the map and leaves it unchanged. -/
def mget (s : Storage) (key : String) : Option (List Byte) × Storage :=
  (lookupS s key, s)

/-- `HashMap::insert` behind the mutex. -/
def minsert (s : Storage) (key : String) (v : List Byte) : Storage :=
  (key, v) :: s

/-- Outcome of a `get_inclusion_data` call: `notFound` is `Ok(None)`,
`found` is `Ok(Some(InclusionData { data }))`, `err r` is
`Err(DAError { is_retriable: r, .. })`, and `panic` is an out-of-bounds
slice panic. -/
inductive FetchResult where
  | notFound
  | found (data : List Byte)
  | err (is_retriable : Bool)
  | panic
deriving DecidableEq

namespace InMemoryClient

/-- The identifier `InMemoryClient::dispatch_blob` constructs:
`hex(0u64.to_be_bytes() ++ commitment.hash())`. The commitment is
`celestia_types::Commitment::from_blob` over the fixed namespace,
`SHARE_VERSION_ZERO` and `AppVersion::V5` — an external library function,
passed here as the parameter `comm`. -/
def blob_id_of (comm : List Byte → List Byte) (data : List Byte) : String :=
  encode_blob_id 0 (comm data)

/-- `in_memory/mod.rs` `dispatch_blob`: build the blob id from the fixed
block height 0 and the commitment hash, insert the raw payload under that id,
and return the id. (The commitment-construction error path of the external
library is not modelled; `comm` is total.) -/
def dispatch_blob (comm : List Byte → List Byte) (s : Storage) (data : List Byte) :
    String × Storage :=
  (blob_id_of comm data, minsert s (blob_id_of comm data) data)

/-- The leaf-resolution loop of `get_inclusion_data`: look every listed
identifier up in the same locked storage, concatenating the payloads in list
order; the first miss aborts with `None` (which the caller turns into a
non-retriable `DAError`). -/
def resolveChunks : Storage → List String → Option (List Byte) × Storage
  | s, [] => (some [], s)
  | s, id :: rest =>
    match mget s id with
    | (none, s1) => (none, s1)
    | (some d, s1) =>
      match resolveChunks s1 rest with
      | (none, s2) => (none, s2)
      | (some tail, s2) => (some (d ++ tail), s2)

/-- `in_memory/mod.rs` `get_inclusion_data`: look the identifier up (empty
result when absent); try to parse the stored bytes as a `ViaDaBlob` (on
failure the raw bytes are the content); a `chunks == 1` envelope carries the
content literally; otherwise deserialize the identifier list (panic on a
malformed buffer — the `map_err` to a fatal `DAError` is unreachable), fail
fatally on a count mismatch, then resolve and concatenate the leaves, any
miss being a fatal error. -/
def get_inclusion_data (s : Storage) (blob_id : String) : FetchResult × Storage :=
  match mget s blob_id with
  | (none, s1) => (.notFound, s1)
  | (some bytes, s1) =>
    match ViaDaBlob.from_bytes bytes with
    | none => (.found bytes, s1)
    | some blob =>
      if blob.chunks = 1 then (.found blob.data, s1)
      else
        match deserialize_blob_ids blob.data with
        | none => (.panic, s1)
        | some ids =>
          if ids.length ≠ blob.chunks then (.err false, s1)
          else
            match resolveChunks s1 ids with
            | (none, s2) => (.err false, s2)
            | (some data, s2) => (.found data, s2)

/-- Sequential `dispatch_blob` calls for a list of payloads, left to right. -/
def dispatchList (comm : List Byte → List Byte) : Storage → List (List Byte) → Storage
  | s, [] => s
  | s, d :: rest => dispatchList comm (dispatch_blob comm s d).2 rest

end InMemoryClient

/-- Outcome of an external network call made by the Celestia backend. -/
inductive NetOutcome (α : Type) where
  | ok (a : α)
  | fail
deriving DecidableEq

namespace CelestiaClient

/-- Outcome of `CelestiaClient::dispatch_blob`. -/
inductive DispatchOutcome where
  | ok (blob_id : String)
  | err (is_retriable : Bool)
deriving DecidableEq

/-- `celestia/mod.rs` `dispatch_blob`: submit the blob (`blob_submit`
failures are retriable errors), then return
`hex(block_height.to_be_bytes() ++ commitment.hash())`. The external
blob/commitment constructors are abstracted as the total parameter `comm`;
the network submission outcome is the parameter `submitRes`. -/
def dispatch_blob (comm : List Byte → List Byte) (submitRes : NetOutcome Nat)
    (data : List Byte) : DispatchOutcome :=
  match submitRes with
  | .fail => .err true
  | .ok block_height => .ok (encode_blob_id block_height (comm data))

/-- `celestia/mod.rs` `get_inclusion_data`: hex-decode the identifier
(failure is a non-retriable `DAError`), slice out `[..8]` block height and
`[8..40]` commitment (out-of-range slices panic; the `try_into` `map_err`
branches are dead), then call `blob_get` (failures are retriable errors) and
return the blob's bytes. The network retrieval outcome is the parameter
`getRes`. -/
def get_inclusion_data (getRes : NetOutcome (List Byte)) (blob_id : String) : FetchResult :=
  match hexDecode blob_id with
  | none => .err false
  | some bytes =>
    if bytes.length < 8 then .panic
    else if bytes.length < 40 then .panic
    else
      match getRes with
      | .fail => .err true
      | .ok data => .found data

end CelestiaClient

theorem resolveChunks_state (s : Storage) (ids : List String) :
    (InMemoryClient.resolveChunks s ids).2 = s := by
  induction ids with
  | nil => rfl
  | cons id rest ih =>
    unfold InMemoryClient.resolveChunks mget
    cases hl : lookupS s id with
    | none => simp [hl]
    | some d =>
      cases hr : InMemoryClient.resolveChunks s rest with
      | mk o s2 =>
        have hs2 : s2 = s := by rw [← ih, hr]
        cases o <;> simp [hl, hr, hs2]

theorem inmemory_fetch_of_lookup_none {s : Storage} {blob_id : String}
    (h : lookupS s blob_id = none) :
    (InMemoryClient.get_inclusion_data s blob_id).1 = .notFound := by
  unfold InMemoryClient.get_inclusion_data mget
  simp [h]

theorem fetch_after_dispatch_of_from_bytes_none (comm : List Byte → List Byte)
    (s : Storage) (data : List Byte) (h : ViaDaBlob.from_bytes data = none) :
    (InMemoryClient.get_inclusion_data (InMemoryClient.dispatch_blob comm s data).2
        (InMemoryClient.dispatch_blob comm s data).1).1 = .found data := by
  unfold InMemoryClient.dispatch_blob InMemoryClient.get_inclusion_data mget minsert
  simp [lookupS, h]

/-- A commitment stand-in used in concrete witnesses: the payload padded with
zeros and truncated to 32 bytes. -/
def commW (data : List Byte) : List Byte := (data ++ List.replicate 32 0).take 32

theorem commW_length (data : List Byte) : (commW data).length = 32 := by
  simp [commW]

/-- C10: `get_inclusion_data` on the in-memory backend never modifies the
storage map, on every control path (found, not-found, error, panic). -/
theorem inmemory_fetch_preserves_storage (s : Storage) (blob_id : String) :
    (InMemoryClient.get_inclusion_data s blob_id).2 = s := by
  unfold InMemoryClient.get_inclusion_data mget
  cases hl : lookupS s blob_id with
  | none => simp [hl]
  | some bytes =>
    cases hf : ViaDaBlob.from_bytes bytes with
    | none => simp [hl, hf]
    | some blob =>
      by_cases hc : blob.chunks = 1
      · simp [hl, hf, hc]
      · cases hd : deserialize_blob_ids blob.data with
        | none => simp [hl, hf, hc, hd]
        | some ids =>
          by_cases hlen : ids.length ≠ blob.chunks
          · simp [hl, hf, hc, hd, hlen]
          · cases hr : InMemoryClient.resolveChunks s ids with
            | mk o s2 =>
              have hs2 : s2 = s := by rw [← resolveChunks_state s ids, hr]
              cases o <;> simp [hl, hf, hc, hd, hlen, hr, hs2]

/-- C7: an identifier absent from the in-memory backend's storage map — in
particular any identifier on a freshly constructed backend — fetches as an
empty result (`Ok(None)`), not an error. -/
theorem unknown_identifier_not_found (s : Storage) (blob_id : String)
    (h : lookupS s blob_id = none) :
    (InMemoryClient.get_inclusion_data s blob_id).1 = .notFound :=
  inmemory_fetch_of_lookup_none h

theorem unknown_identifier_not_found_witness :
    lookupS [] "deadbeef" = none ∧
      (InMemoryClient.get_inclusion_data [] "deadbeef").1 = .notFound :=
  ⟨rfl, unknown_identifier_not_found [] "deadbeef" rfl⟩

/-- C4 counterexample: on the in-memory backend the identifier is an opaque
map key, so the malformed (non-hex) identifier "zz" fetches as the empty
result on a fresh backend — not as a fatal error, contradicting the claim. -/
theorem malformed_identifier_counterexample :
    hexDecode "zz" = none ∧
      (InMemoryClient.get_inclusion_data [] "zz").1 = .notFound := by
  constructor
  · decide
  · rfl

/-- C4 amended: only the Celestia backend turns malformed (non-hex)
identifiers into a fatal error; the in-memory backend treats identifiers as
opaque keys, and any identifier absent from its map — malformed or not —
yields the empty result. -/
theorem malformed_identifier_amended :
    (∀ (getRes : NetOutcome (List Byte)) (blob_id : String), hexDecode blob_id = none →
        CelestiaClient.get_inclusion_data getRes blob_id = .err false)
    ∧ (∀ (s : Storage) (blob_id : String), lookupS s blob_id = none →
        (InMemoryClient.get_inclusion_data s blob_id).1 = .notFound) := by
  constructor
  · intro getRes blob_id h
    unfold CelestiaClient.get_inclusion_data
    rw [h]
  · intro s blob_id h
    exact inmemory_fetch_of_lookup_none h

theorem malformed_identifier_amended_witness :
    CelestiaClient.get_inclusion_data (.ok []) "zz" = .err false ∧
      (InMemoryClient.get_inclusion_data [] "zz").1 = .notFound :=
  ⟨malformed_identifier_amended.1 (.ok []) "zz" (by decide),
   malformed_identifier_amended.2 [] "zz" (by decide)⟩

/-- C3 (code bug): for every identifier that hex-decodes to fewer than 40
bytes, `parse_blob_id` panics on an out-of-bounds slice instead of returning
the fatal, non-retriable error its (unreachable) `map_err` handlers intend. -/
theorem short_locator_panics (blob_id : String) (bytes : List Byte)
    (hdec : hexDecode blob_id = some bytes) (hlen : bytes.length < 40) :
    parse_blob_id blob_id = .panic := by
  simp only [parse_blob_id, hdec]
  rcases Nat.lt_or_ge bytes.length 8 with h | h
  · rw [if_pos h]
  · rw [if_neg (by omega), if_pos hlen]

theorem short_locator_panics_witness :
    hexDecode "00" = some [0] ∧ ([(0 : Byte)] : List Byte).length < 40 ∧
      parse_blob_id "00" = .panic :=
  ⟨by decide, by decide, short_locator_panics "00" [0] (by decide) (by decide)⟩

/-- C8 (code bug): on the Celestia backend, failed blob submission and failed
blob retrieval are reported as retriable errors and hex-decoding failures as
non-retriable errors — but an identifier that hex-decodes to fewer than 40
bytes (such as "00") panics on an out-of-bounds slice rather than being
reported as a non-retriable decoding error. -/
theorem celestia_error_classification :
    (∀ (comm : List Byte → List Byte) (data : List Byte),
        CelestiaClient.dispatch_blob comm .fail data = .err true)
    ∧ (∀ (getRes : NetOutcome (List Byte)) (blob_id : String), hexDecode blob_id = none →
        CelestiaClient.get_inclusion_data getRes blob_id = .err false)
    ∧ (∀ (blob_id : String) (bytes : List Byte), hexDecode blob_id = some bytes →
        40 ≤ bytes.length → CelestiaClient.get_inclusion_data .fail blob_id = .err true)
    ∧ (∀ getRes : NetOutcome (List Byte),
        CelestiaClient.get_inclusion_data getRes "00" = .panic) := by
  refine ⟨fun comm data => rfl, fun getRes blob_id h => ?_,
    fun blob_id bytes h hlen => ?_, fun getRes => ?_⟩
  · unfold CelestiaClient.get_inclusion_data
    rw [h]
  · simp only [CelestiaClient.get_inclusion_data, h]
    rw [if_neg (by omega), if_neg (by omega)]
  · have hdec : hexDecode "00" = some [(0 : Byte)] := by decide
    simp only [CelestiaClient.get_inclusion_data, hdec]
    rw [if_pos (by decide)]

theorem celestia_error_classification_witness :
    CelestiaClient.dispatch_blob (fun _ => []) .fail [] = .err true ∧
      CelestiaClient.get_inclusion_data (.ok []) "zz" = .err false ∧
      CelestiaClient.get_inclusion_data .fail (hexEncode (List.replicate 40 0)) = .err true ∧
      CelestiaClient.get_inclusion_data (.ok []) "00" = .panic :=
  ⟨celestia_error_classification.1 (fun _ => []) [],
   celestia_error_classification.2.1 (.ok []) "zz" (by decide),
   celestia_error_classification.2.2.1 (hexEncode (List.replicate 40 0))
     (List.replicate 40 0) (hexDecode_hexEncode _) (by simp),
   celestia_error_classification.2.2.2 (.ok [])⟩

/-- C5: decoding the locator produced by encoding a `u64` position and a
32-byte commitment returns exactly the original pair. -/
theorem codec_round_trip (pos : Nat) (commitment : List Byte)
    (hpos : pos < 2 ^ 64) (hlen : commitment.length = 32) :
    parse_blob_id (encode_blob_id pos commitment) = .ok commitment pos := by
  have h8 : (natToBeBytes 8 pos).length = 8 := natToBeBytes_length 8 pos
  have hlen8 : ¬ (natToBeBytes 8 pos ++ commitment).length < 8 := by
    rw [List.length_append, h8, hlen]; omega
  have hlen40 : ¬ (natToBeBytes 8 pos ++ commitment).length < 40 := by
    rw [List.length_append, h8, hlen]; omega
  simp only [encode_blob_id, parse_blob_id, hexDecode_hexEncode]
  rw [if_neg hlen8, if_neg hlen40, drop_append_of_length h8,
    take_append_of_length h8, beBytesToNat_natToBeBytes, ← hlen, List.take_length]
  have hp : (256 : Nat) ^ 8 = 2 ^ 64 := by norm_num
  rw [hp, Nat.mod_eq_of_lt hpos]

theorem codec_round_trip_witness :
    (5 : Nat) < 2 ^ 64 ∧ (List.replicate 32 (0 : Byte)).length = 32 ∧
      parse_blob_id (encode_blob_id 5 (List.replicate 32 0)) =
        .ok (List.replicate 32 0) 5 :=
  ⟨by norm_num, by simp, codec_round_trip 5 (List.replicate 32 0) (by norm_num) (by simp)⟩

/-- C9: a payload that does not bincode-deserialize as a `ViaDaBlob` round
trips exactly through the in-memory backend's backward-compatible leaf
branch: fetching the dispatched identifier returns the raw stored bytes. -/
theorem leaf_fallback_round_trip (comm : List Byte → List Byte) (s : Storage)
    (data : List Byte) (h : ViaDaBlob.from_bytes data = none) :
    (InMemoryClient.get_inclusion_data (InMemoryClient.dispatch_blob comm s data).2
        (InMemoryClient.dispatch_blob comm s data).1).1 = .found data :=
  fetch_after_dispatch_of_from_bytes_none comm s data h

theorem leaf_fallback_round_trip_witness :
    ViaDaBlob.from_bytes [1, 2, 3] = none ∧
      (InMemoryClient.get_inclusion_data
          (InMemoryClient.dispatch_blob commW [] [1, 2, 3]).2
          (InMemoryClient.dispatch_blob commW [] [1, 2, 3]).1).1 = .found [1, 2, 3] :=
  ⟨by decide, leaf_fallback_round_trip commW [] [1, 2, 3] (by decide)⟩

/-- The 16-byte bincode image of `ViaDaBlob { chunks: 1, data: vec![] }`:
a raw payload that *accidentally* parses as a chunk envelope. -/
def envelopePayload : List Byte := natToLeBytes 8 1 ++ natToLeBytes 8 0

/-- C1 counterexample: dispatching `envelopePayload` (16 bytes, well within
any realistic size limit) on a fresh in-memory backend and fetching the
returned identifier yields the empty byte string, not the payload: the
stored bytes parse as a `chunks == 1` envelope and are reinterpreted. -/
theorem round_trip_counterexample :
    (InMemoryClient.get_inclusion_data
        (InMemoryClient.dispatch_blob commW [] envelopePayload).2
        (InMemoryClient.dispatch_blob commW [] envelopePayload).1).1 ≠
      .found envelopePayload ∧
    (InMemoryClient.get_inclusion_data
        (InMemoryClient.dispatch_blob commW [] envelopePayload).2
        (InMemoryClient.dispatch_blob commW [] envelopePayload).1).1 = .found [] := by
  constructor
  · decide
  · decide

/-- C1 amended: the dispatch/fetch round trip holds for every payload that
does not bincode-deserialize as a `ViaDaBlob` envelope; payloads that do are
reinterpreted by the reconstruction protocol. -/
theorem round_trip_amended (comm : List Byte → List Byte) (s : Storage)
    (data : List Byte) (h : ViaDaBlob.from_bytes data = none) :
    (InMemoryClient.get_inclusion_data (InMemoryClient.dispatch_blob comm s data).2
        (InMemoryClient.dispatch_blob comm s data).1).1 = .found data :=
  fetch_after_dispatch_of_from_bytes_none comm s data h

theorem round_trip_amended_witness :
    ViaDaBlob.from_bytes [7] = none ∧
      (InMemoryClient.get_inclusion_data
          (InMemoryClient.dispatch_blob commW [] [7]).2
          (InMemoryClient.dispatch_blob commW [] [7]).1).1 = .found [7] :=
  ⟨by decide, round_trip_amended commW [] [7] (by decide)⟩

theorem resolveChunks_none_of_miss (s : Storage) (ids : List String)
    (h : ∃ id ∈ ids, lookupS s id = none) :
    (InMemoryClient.resolveChunks s ids).1 = none := by
  induction ids with
  | nil =>
    obtain ⟨id, hmem, _⟩ := h
    cases hmem
  | cons id rest ih =>
    unfold InMemoryClient.resolveChunks mget
    obtain ⟨a, hmem, hnone⟩ := h
    rcases List.mem_cons.mp hmem with rfl | hmem2
    · simp [hnone]
    · cases hl : lookupS s id with
      | none => simp [hl]
      | some d =>
        have hres := ih ⟨a, hmem2, hnone⟩
        cases hr : InMemoryClient.resolveChunks s rest with
        | mk o s2 =>
          rw [hr] at hres
          cases o
          · simp [hl, hr]
          · exact absurd hres (by simp)

/-- C6: whenever the stored blob parses as an envelope with `chunks ≠ 1` and
its identifier list deserializes, a count mismatch or any listed identifier
missing from storage makes the in-memory fetch fail with a fatal,
non-retriable error. -/
theorem envelope_corruption_fatal (s : Storage) (blob_id : String) (bytes : List Byte)
    (blob : ViaDaBlob) (ids : List String)
    (hlook : lookupS s blob_id = some bytes)
    (hparse : ViaDaBlob.from_bytes bytes = some blob)
    (hchunks : blob.chunks ≠ 1)
    (hdeser : deserialize_blob_ids blob.data = some ids)
    (hbad : ids.length ≠ blob.chunks ∨ ∃ id ∈ ids, lookupS s id = none) :
    (InMemoryClient.get_inclusion_data s blob_id).1 = .err false := by
  unfold InMemoryClient.get_inclusion_data mget
  by_cases hlen : ids.length = blob.chunks
  · rcases hbad with hbad | hmiss
    · exact absurd hlen hbad
    · have hres := resolveChunks_none_of_miss s ids hmiss
      cases hr : InMemoryClient.resolveChunks s ids with
      | mk o s2 =>
        rw [hr] at hres
        cases o
        · simp [hlook, hparse, hchunks, hdeser, hlen, hr]
        · exact absurd hres (by simp)
  · simp [hlook, hparse, hchunks, hdeser, hlen]

/-- A corrupted pointer blob: declares two chunks but lists one identifier. -/
def corruptEnvelope : List Byte := ViaDaBlob.to_bytes ⟨2, natToBeBytes 4 1 ++ [0]⟩

theorem deserialize_blob_ids_nil : deserialize_blob_ids [] = some [] := by
  rw [deserialize_blob_ids]
  simp

/-- One iteration of the `deserialize_blob_ids` loop on a well-formed block. -/
theorem deserialize_step (raw tail : List Byte) (h : raw.length < 2 ^ 32) :
    deserialize_blob_ids (natToBeBytes 4 raw.length ++ (raw ++ tail)) =
      match deserialize_blob_ids tail with
      | some ids => some (hexEncode raw :: ids)
      | none => none := by
  have h4 : (natToBeBytes 4 raw.length).length = 4 := natToBeBytes_length 4 raw.length
  have hlen : (natToBeBytes 4 raw.length ++ (raw ++ tail)).length
      = 4 + (raw.length + tail.length) := by
    simp [List.length_append, h4]
  have hne : natToBeBytes 4 raw.length ++ (raw ++ tail) ≠ [] := by
    intro hc
    have := congrArg List.length hc
    rw [hlen] at this
    simp at this
  have h4' : ¬ (natToBeBytes 4 raw.length ++ (raw ++ tail)).length < 4 := by
    rw [hlen]; omega
  have hbe : beBytesToNat (natToBeBytes 4 raw.length) = raw.length := by
    rw [beBytesToNat_natToBeBytes]
    have hp : (256 : Nat) ^ 4 = 2 ^ 32 := by norm_num
    rw [hp, Nat.mod_eq_of_lt h]
  have hlen2 : ¬ (raw ++ tail).length < raw.length := by
    rw [List.length_append]; omega
  conv_lhs => rw [deserialize_blob_ids]
  rw [dif_neg hne, take_append_of_length h4, drop_append_of_length h4, hbe, dif_neg h4',
    dif_neg hlen2, drop_len_append, take_len_append]

theorem deserialize_corrupt : deserialize_blob_ids (natToBeBytes 4 1 ++ [0]) = some ["00"] := by
  have h := deserialize_step [0] [] (by norm_num)
  rw [List.append_nil] at h
  simp only [List.length_singleton] at h
  rw [h, deserialize_blob_ids_nil]
  decide

theorem envelope_corruption_fatal_witness :
    (InMemoryClient.get_inclusion_data [("aa", corruptEnvelope)] "aa").1 = .err false :=
  envelope_corruption_fatal [("aa", corruptEnvelope)] "aa" corruptEnvelope
    ⟨2, natToBeBytes 4 1 ++ [0]⟩ ["00"] (by decide) (by decide) (by decide)
    deserialize_corrupt (Or.inl (by decide))

/-- Byte-wise concatenation of a list of payloads, in list order. -/
def concatBytes : List (List Byte) → List Byte
  | [] => []
  | c :: rest => c ++ concatBytes rest

theorem deserialize_serialize (ids : List String) :
    ∀ payload : List Byte,
      (∀ id ∈ ids, ∃ raw : List Byte, id = hexEncode raw ∧ raw.length = 40) →
      serialize_blob_ids ids = some payload →
      deserialize_blob_ids payload = some ids ∧ payload.length = 44 * ids.length := by
  induction ids with
  | nil =>
    intro payload _ hser
    simp only [serialize_blob_ids, Option.some.injEq] at hser
    subst hser
    exact ⟨deserialize_blob_ids_nil, by simp⟩
  | cons id rest ih =>
    intro payload hcanon hser
    obtain ⟨raw, hid, hraw⟩ := hcanon id (List.mem_cons_self id rest)
    have hdec : hexDecode id = some raw := by rw [hid]; exact hexDecode_hexEncode raw
    cases htail : serialize_blob_ids rest with
    | none => simp [serialize_blob_ids, hdec, htail] at hser
    | some tail =>
      simp only [serialize_blob_ids, hdec, htail, Option.some.injEq] at hser
      obtain ⟨hdtail, hltail⟩ := ih tail
        (fun i hi => hcanon i (List.mem_cons_of_mem _ hi)) htail
      subst hser
      have hb : raw.length < 2 ^ 32 := by rw [hraw]; norm_num
      constructor
      · rw [deserialize_step raw tail hb, hdtail, hid]
      · rw [List.length_append, List.length_append, natToBeBytes_length, hraw, hltail,
          List.length_cons]
        ring

theorem dispatchList_eq (comm : List Byte → List Byte) (s : Storage)
    (cs : List (List Byte)) :
    InMemoryClient.dispatchList comm s cs =
      (cs.map (fun d => (InMemoryClient.blob_id_of comm d, d))).reverse ++ s := by
  induction cs generalizing s with
  | nil => rfl
  | cons d rest ih =>
    rw [InMemoryClient.dispatchList, ih]
    simp [InMemoryClient.dispatch_blob, minsert, List.reverse_cons, List.append_assoc]

theorem lookupS_append_of_mem (E : Storage) (key : String) (d : List Byte)
    (hmem : (key, d) ∈ E) (huniq : ∀ p ∈ E, p.1 = key → p.2 = d) (s : Storage) :
    lookupS (E ++ s) key = some d := by
  induction E with
  | nil => cases hmem
  | cons p E ih =>
    obtain ⟨k, v⟩ := p
    rw [List.cons_append, lookupS]
    by_cases hk : k = key
    · rw [if_pos hk]
      exact congrArg some (huniq (k, v) (List.mem_cons_self _ _) hk)
    · rw [if_neg hk]
      apply ih
      · rcases List.mem_cons.mp hmem with heq | h
        · have hkk : key = k := congrArg Prod.fst heq
          exact absurd hkk.symm hk
        · exact h
      · exact fun q hq hq1 => huniq q (List.mem_cons_of_mem _ hq) hq1

theorem blob_id_of_inj {comm : List Byte → List Byte} {a b : List Byte}
    (h : InMemoryClient.blob_id_of comm a = InMemoryClient.blob_id_of comm b) :
    comm a = comm b := by
  unfold InMemoryClient.blob_id_of encode_blob_id at h
  exact List.append_cancel_left (hexEncode_injective h)

theorem resolveChunks_map (comm : List Byte → List Byte) (s : Storage)
    (cs : List (List Byte))
    (h : ∀ c ∈ cs, lookupS s (InMemoryClient.blob_id_of comm c) = some c) :
    InMemoryClient.resolveChunks s (cs.map (InMemoryClient.blob_id_of comm)) =
      (some (concatBytes cs), s) := by
  induction cs with
  | nil => rfl
  | cons c rest ih =>
    have h1 := h c (List.mem_cons_self _ _)
    have h2 := ih (fun x hx => h x (List.mem_cons_of_mem _ hx))
    simp only [List.map_cons, InMemoryClient.resolveChunks, mget, h1, h2, concatBytes]

/-- C2 (amended: at least two leaves). Dispatching leaves `c1..ck` in order,
building the pointer envelope `ViaDaBlob { chunks: k, data: payload }` with
`payload` the length-prefixed identifier list (`serialize_blob_ids`),
dispatching it, and fetching its identifier returns the byte-wise
concatenation of `c1..ck` in list order — provided `k ≥ 2` (a `k = 1`
envelope is taken as a literal leaf), the commitment function yields 32-byte
digests and is injective on the dispatched payloads, and `k` is below the
`u32` length-prefix range. -/
theorem chunk_reconstruction (comm : List Byte → List Byte) (s0 : Storage)
    (cs : List (List Byte)) (payload : List Byte)
    (hk2 : 2 ≤ cs.length) (hkb : cs.length < 2 ^ 32)
    (hcl : ∀ x, (comm x).length = 32)
    (hser : serialize_blob_ids (cs.map (InMemoryClient.blob_id_of comm)) = some payload)
    (hinj : ∀ a ∈ ViaDaBlob.to_bytes ⟨cs.length, payload⟩ :: cs,
        ∀ b ∈ ViaDaBlob.to_bytes ⟨cs.length, payload⟩ :: cs, comm a = comm b → a = b) :
    (InMemoryClient.get_inclusion_data
        (InMemoryClient.dispatch_blob comm (InMemoryClient.dispatchList comm s0 cs)
            (ViaDaBlob.to_bytes ⟨cs.length, payload⟩)).2
        (InMemoryClient.dispatch_blob comm (InMemoryClient.dispatchList comm s0 cs)
            (ViaDaBlob.to_bytes ⟨cs.length, payload⟩)).1).1
      = .found (concatBytes cs) := by
  have hcanon : ∀ id ∈ cs.map (InMemoryClient.blob_id_of comm),
      ∃ raw : List Byte, id = hexEncode raw ∧ raw.length = 40 := by
    intro id hid
    obtain ⟨c, _, rfl⟩ := List.mem_map.mp hid
    refine ⟨natToBeBytes 8 0 ++ comm c, rfl, ?_⟩
    rw [List.length_append, natToBeBytes_length, hcl]
  obtain ⟨hdeser, hplen⟩ := deserialize_serialize _ payload hcanon hser
  rw [List.length_map] at hplen
  have c32 : (2 : Nat) ^ 32 = 4294967296 := by norm_num
  have c64 : (2 : Nat) ^ 64 = 18446744073709551616 := by norm_num
  have hk64 : cs.length < 2 ^ 64 := by rw [c64]; rw [c32] at hkb; omega
  have hplen64 : payload.length < 2 ^ 64 := by rw [c64]; rw [c32] at hkb; omega
  have hfrom : ViaDaBlob.from_bytes (ViaDaBlob.to_bytes ⟨cs.length, payload⟩)
      = some ⟨cs.length, payload⟩ := from_bytes_to_bytes _ hk64 hplen64
  have hsfinal : (InMemoryClient.dispatch_blob comm (InMemoryClient.dispatchList comm s0 cs)
      (ViaDaBlob.to_bytes ⟨cs.length, payload⟩)).2
      = (InMemoryClient.blob_id_of comm (ViaDaBlob.to_bytes ⟨cs.length, payload⟩),
          ViaDaBlob.to_bytes ⟨cs.length, payload⟩) ::
        ((cs.map (fun d => (InMemoryClient.blob_id_of comm d, d))).reverse ++ s0) := by
    rw [dispatchList_eq]
    rfl
  have hlookleaf : ∀ c ∈ cs,
      lookupS ((InMemoryClient.blob_id_of comm (ViaDaBlob.to_bytes ⟨cs.length, payload⟩),
            ViaDaBlob.to_bytes ⟨cs.length, payload⟩) ::
          ((cs.map (fun d => (InMemoryClient.blob_id_of comm d, d))).reverse ++ s0))
        (InMemoryClient.blob_id_of comm c) = some c := by
    intro c hc
    have hmem : (InMemoryClient.blob_id_of comm c, c) ∈
        (InMemoryClient.blob_id_of comm (ViaDaBlob.to_bytes ⟨cs.length, payload⟩),
          ViaDaBlob.to_bytes ⟨cs.length, payload⟩) ::
          (cs.map (fun d => (InMemoryClient.blob_id_of comm d, d))).reverse :=
      List.mem_cons_of_mem _ (List.mem_reverse.mpr (List.mem_map.mpr ⟨c, hc, rfl⟩))
    have huniq : ∀ p ∈ (InMemoryClient.blob_id_of comm
            (ViaDaBlob.to_bytes ⟨cs.length, payload⟩),
          ViaDaBlob.to_bytes ⟨cs.length, payload⟩) ::
          (cs.map (fun d => (InMemoryClient.blob_id_of comm d, d))).reverse,
        p.1 = InMemoryClient.blob_id_of comm c → p.2 = c := by
      intro p hp hkey
      rcases List.mem_cons.mp hp with rfl | hp2
      · exact hinj _ (List.mem_cons_self _ _) c (List.mem_cons_of_mem _ hc)
          (blob_id_of_inj hkey)
      · obtain ⟨a, ha, rfl⟩ := List.mem_map.mp (List.mem_reverse.mp hp2)
        exact hinj a (List.mem_cons_of_mem _ ha) c (List.mem_cons_of_mem _ hc)
          (blob_id_of_inj hkey)
    have hres := lookupS_append_of_mem _ _ _ hmem huniq s0
    rwa [List.cons_append] at hres
  have hres := resolveChunks_map comm _ cs hlookleaf
  have hp1 : (InMemoryClient.dispatch_blob comm (InMemoryClient.dispatchList comm s0 cs)
      (ViaDaBlob.to_bytes ⟨cs.length, payload⟩)).1
      = InMemoryClient.blob_id_of comm (ViaDaBlob.to_bytes ⟨cs.length, payload⟩) := rfl
  rw [hp1, hsfinal]
  unfold InMemoryClient.get_inclusion_data mget
  have hlookP : lookupS ((InMemoryClient.blob_id_of comm
        (ViaDaBlob.to_bytes ⟨cs.length, payload⟩),
        ViaDaBlob.to_bytes ⟨cs.length, payload⟩) ::
      ((cs.map (fun d => (InMemoryClient.blob_id_of comm d, d))).reverse ++ s0))
      (InMemoryClient.blob_id_of comm (ViaDaBlob.to_bytes ⟨cs.length, payload⟩))
      = some (ViaDaBlob.to_bytes ⟨cs.length, payload⟩) := by
    rw [lookupS, if_pos rfl]
  have hne1 : ¬ ((⟨cs.length, payload⟩ : ViaDaBlob).chunks = 1) := by
    simp only []
    omega
  have hnelen : ¬ ((cs.map (InMemoryClient.blob_id_of comm)).length
      ≠ (⟨cs.length, payload⟩ : ViaDaBlob).chunks) := by
    simp [List.length_map]
  simp only [hlookP, hfrom, if_neg hne1, hdeser, if_neg hnelen, hres]

/-- The serialized one-identifier list for the single leaf `[0]` under
`commW`: a 4-byte big-endian length 40 followed by the 40 raw identifier
bytes. -/
def pointerPayload1 : List Byte := natToBeBytes 4 40 ++ (natToBeBytes 8 0 ++ commW [0])

/-- The envelope declaring `chunk_count = 1` over that identifier list. -/
def pointerBlob1 : List Byte := ViaDaBlob.to_bytes ⟨1, pointerPayload1⟩

/-- C2 counterexample (k = 1): with a single dispatched leaf `[0]`, the
envelope with `chunk_count = 1` whose payload is the length-prefixed list of
the one returned identifier is taken as a literal leaf by the `chunks == 1`
branch, so fetching its identifier returns the serialized identifier list
itself rather than the leaf's content `[0]`. -/
theorem chunk_reconstruction_counterexample :
    serialize_blob_ids [InMemoryClient.blob_id_of commW [0]] = some pointerPayload1 ∧
    (InMemoryClient.get_inclusion_data
        (InMemoryClient.dispatch_blob commW
          (InMemoryClient.dispatchList commW [] [[0]]) pointerBlob1).2
        (InMemoryClient.dispatch_blob commW
          (InMemoryClient.dispatchList commW [] [[0]]) pointerBlob1).1).1
      = .found pointerPayload1 ∧
    pointerPayload1 ≠ concatBytes [[0]] := by
  refine ⟨by decide, by decide, by decide⟩

/-- The serialized two-identifier list for leaves `[0]`, `[1]` under `commW`. -/
def payloadW2 : List Byte :=
  natToBeBytes 4 40 ++ ((natToBeBytes 8 0 ++ commW [0]) ++
    (natToBeBytes 4 40 ++ ((natToBeBytes 8 0 ++ commW [1]) ++ [])))

theorem chunk_reconstruction_witness :
    2 ≤ ([[0], [1]] : List (List Byte)).length ∧
    ([[0], [1]] : List (List Byte)).length < 2 ^ 32 ∧
    serialize_blob_ids (([[0], [1]] : List (List Byte)).map
      (InMemoryClient.blob_id_of commW)) = some payloadW2 ∧
    (InMemoryClient.get_inclusion_data
        (InMemoryClient.dispatch_blob commW
          (InMemoryClient.dispatchList commW [] [[0], [1]])
          (ViaDaBlob.to_bytes ⟨([[0], [1]] : List (List Byte)).length, payloadW2⟩)).2
        (InMemoryClient.dispatch_blob commW
          (InMemoryClient.dispatchList commW [] [[0], [1]])
          (ViaDaBlob.to_bytes ⟨([[0], [1]] : List (List Byte)).length, payloadW2⟩)).1).1
      = .found (concatBytes [[0], [1]]) :=
  ⟨by decide, by decide, by decide,
   chunk_reconstruction commW [] [[0], [1]] payloadW2 (by decide) (by decide)
     commW_length (by decide) (by decide)⟩
